import Mathlib

/-
  Verification of the Source-URL Grouping Service of the JamLicenseTracker
  editor module (Source/JamLicenseTrackerEditor/Private/JamLicenseTrackerEditorModule.cpp).

  Host string semantics.  The module manipulates URLs as FString values of the
  host engine.  In that engine, the relational operators on FString are
  case insensitive: operator== and operator!= are Stricmp-based, operator< is
  "Lexicographically test whether the left string is < the right string
  (case insensitive)", and GetTypeHash(FString) is the case-insensitive
  Strihash, so TMap and TSet keyed by FString identify keys that differ only
  in letter case.  We model this by folding ASCII letters to lower case
  before comparing; the per-character fold of the host also covers a few
  Latin-1 letters, but every concrete input used below is plain ASCII, where
  the two agree.
-/

namespace JamLicense

/-- ASCII case fold of one character, as done per character by the host's
case-insensitive string comparison (TChar::ToLower): letters A-Z map to a-z,
everything else is unchanged. -/
def foldChar (c : Char) : Char :=
  if 'A' ≤ c ∧ c ≤ 'Z' then Char.ofNat (c.toNat + 32) else c

/-- Case fold of a whole string, character by character. -/
def foldStr (s : String) : String :=
  String.mk (s.data.map foldChar)

/-- Host FString equality (operator==, operator!=): case-insensitive
comparison, i.e. equality of the case-folded strings. -/
def eqCI (a b : String) : Bool :=
  decide (foldStr a = foldStr b)

/-- Strict lexicographic comparison of character lists: first differing
character decides, a strict prefix is smaller.  This is the order computed by
a character-by-character strcmp-style loop. -/
def lexLt : List Char → List Char → Bool
  | [], [] => false
  | [], _ :: _ => true
  | _ :: _, [] => false
  | a :: as, b :: bs => if a = b then lexLt as bs else decide (a < b)

/-- Byte/codepoint lexicographic order on strings (the order the spec claims
for tie-breaking). -/
def byteLt (a b : String) : Bool :=
  lexLt a.data b.data

/-- Host FString operator< : case-insensitive lexicographic order
(Stricmp < 0), i.e. byte order of the case-folded strings. -/
def ciLt (a b : String) : Bool :=
  lexLt (foldStr a).data (foldStr b).data

/-- UMetaData::GetValue lookup result: the stored value, or the empty string
when the key holds no value. -/
def getValue : Option String → String
  | none => ""
  | some s => s

/-- Annotation state of one selected asset.  noStore: the asset's package has
no metadata object (Package->HasMetaData() is false); store v: the package
has a metadata object whose AssetSourceURL key holds v (none when the key is
absent, in which case GetValue returns the empty string). -/
inductive MetaState where
  | noStore : MetaState
  | store : Option String → MetaState
deriving DecidableEq

/-- The URL an asset contributes to the queries: present exactly when the
package has a metadata object and the stored value is non-empty (both query
loops test HasMetaData and then LicenseAssetID.IsEmpty()). -/
def readURL : MetaState → Option String
  | MetaState.noStore => none
  | MetaState.store v => if getValue v = "" then none else some (getValue v)

/-- One TMap<FString,int32>::FindOrAdd(url) += 1 step
(CreateLicenseListSubmenu line 334).  The map is modelled as an association
list in insertion order; FindOrAdd matches keys with the host's
case-insensitive FString equality and keeps the spelling of the key that was
inserted first. -/
def findOrAddIncrement (url : String) : List (String × Nat) → List (String × Nat)
  | [] => [(url, 1)]
  | e :: rest =>
      if eqCI e.1 url then (e.1, e.2 + 1) :: rest
      else e :: findOrAddIncrement url rest

/-- One iteration of the tally loop of CreateLicenseListSubmenu
(lines 325-346): a non-empty URL increments its tally entry, anything else
(no metadata object, or an empty value) increments NumAssetsWithNoURL. -/
def tallyStep (acc : List (String × Nat) × Nat) (a : MetaState) :
    List (String × Nat) × Nat :=
  match a with
  | MetaState.noStore => (acc.1, acc.2 + 1)
  | MetaState.store v =>
      if getValue v = "" then (acc.1, acc.2 + 1)
      else (findOrAddIncrement (getValue v) acc.1, acc.2)

/-- The Summarize operation: the tally loop of CreateLicenseListSubmenu run
over the selected assets, producing (URLUsageMap, NumAssetsWithNoURL). -/
def summarize (assets : List MetaState) : List (String × Nat) × Nat :=
  assets.foldl tallyStep ([], 0)

/-- Sum of the counts stored in a tally. -/
def sumCounts (t : List (String × Nat)) : Nat :=
  (t.map Prod.snd).sum

/-- Whether an asset contributes an occurrence of (a case-insensitive match
of) the URL u. -/
def matchesCI (u : String) (a : MetaState) : Bool :=
  match readURL a with
  | some v => eqCI v u
  | none => false

/-- Number of assets whose stored URL is a case-insensitive match of u. -/
def occCI (u : String) (assets : List MetaState) : Nat :=
  (assets.filter (matchesCI u)).length

/-- Number of assets contributing no URL. -/
def countNoURL (assets : List MetaState) : Nat :=
  (assets.filter (fun a => (readURL a).isNone)).length

/-- TMap operator[] lookup: the count stored under the (case-insensitively
matched) key, 0 when absent (the code only looks up present keys). -/
def lookupCount (u : String) (tally : List (String × Nat)) : Nat :=
  match tally.find? (fun e => eqCI e.1 u) with
  | some e => e.2
  | none => 0

/-- State of the shared-license scan of AddAssetSourceOptions
(lines 91-130): bAnyHaveLicense, bAnyMissingLicense, SharedLicenseAssetID. -/
structure ShareState where
  anyHave : Bool
  anyMissing : Bool
  shared : String
deriving DecidableEq

/-- One iteration of the scan loop of AddAssetSourceOptions (lines 96-130).
Note the asymmetry of the source: an empty stored value clears
SharedLicenseAssetID, but a package without a metadata object only sets
bAnyMissingLicense and leaves SharedLicenseAssetID untouched.  The URL
comparison (LicenseAssetID != SharedLicenseAssetID) is the case-insensitive
FString operator!=. -/
def shareStep (st : ShareState) (a : MetaState) : ShareState :=
  match a with
  | MetaState.noStore => { st with anyMissing := true }
  | MetaState.store v =>
      if getValue v = "" then { st with anyMissing := true, shared := "" }
      else if st.anyHave = false ∧ st.anyMissing = false then
        { st with anyHave := true, shared := getValue v }
      else if eqCI (getValue v) st.shared = true then
        { st with anyHave := true }
      else
        { st with anyHave := true, shared := "" }

/-- The whole scan of AddAssetSourceOptions over the selection. -/
def scanShared (assets : List MetaState) : ShareState :=
  assets.foldl shareStep { anyHave := false, anyMissing := false, shared := "" }

/-- The SharedValue operation: the direct open action is offered with URL s
exactly when the scan leaves SharedLicenseAssetID = s non-empty
(line 132). -/
def sharedValue (assets : List MetaState) : Option String :=
  if (scanShared assets).shared = "" then none else some (scanShared assets).shared

/-- The starting value shown in the Source URL text box (lines 160-165):
the shared URL, replaced by the sentinel when at least one asset has a
license but the shared URL is empty. -/
def startingValueOf (assets : List MetaState) : String :=
  if (scanShared assets).anyHave = true ∧ (scanShared assets).shared = "" then
    "[multiple values]"
  else (scanShared assets).shared

/-- The comparator passed to UniqueURLs.Sort in CreateLicenseListSubmenu
(lines 352-365): descending count, ties broken by the host FString operator<
(case-insensitive ascending order). -/
def cmpURLs (tally : List (String × Nat)) (a b : String) : Bool :=
  if lookupCount a tally = lookupCount b tally then ciLt a b
  else decide (lookupCount a tally > lookupCount b tally)

/-- Insert one element into an already sorted list, before the first element
it compares strictly below. -/
def sortInsert (lt : String → String → Bool) (x : String) : List String → List String
  | [] => [x]
  | y :: ys => if lt x y then x :: y :: ys else y :: sortInsert lt x ys

/-- Sorting with a strict comparator.  TArray::Sort is an unstable sort, but
the comparator used by the module is a strict total order on the
(case-insensitively distinct) map keys, so its output is the unique sorted
arrangement; insertion sort computes that same arrangement, and the
uniqueness is proved below as the determinism part of C4. -/
def sortURLs (lt : String → String → Bool) : List String → List String
  | [] => []
  | x :: xs => sortInsert lt x (sortURLs lt xs)

/-- The RankedList operation (lines 349-378): the map keys sorted with the
comparator, each paired with its usage count as displayed in the menu
entry. -/
def rankedList (tally : List (String × Nat)) : List (String × Nat) :=
  (sortURLs (cmpURLs tally) (tally.map Prod.fst)).map (fun u => (u, lookupCount u tally))

/-- A tally as TMap actually produces it: keys pairwise distinct under the
host's case-insensitive key equality. -/
abbrev wellFormedTally (t : List (String × Nat)) : Prop :=
  List.Pairwise (fun e f => eqCI e.1 f.1 = false) t

/-- The ordering the spec claims for RankedList: descending count with ties
broken by ascending byte/codepoint order of the URL.  This definition follows
the spec's words (not the source) and exists to be compared with the
behaviour of rankedList. -/
abbrev specByteOrdered (l : List (String × Nat)) : Prop :=
  List.Pairwise (fun e f => e.2 > f.2 ∨ (e.2 = f.2 ∧ byteLt e.1 f.1 = true)) l

/-- The body of the per-asset write in SetLicenseURLAction (lines 179-193):
Package->GetMetaData() creates the metadata object when missing, then an
empty committed value removes the key and a non-empty one overwrites it.
The result does not depend on the previous state of the asset. -/
def applySourceURL (endingValue : String) (_m : MetaState) : MetaState :=
  if endingValue = "" then MetaState.store none else MetaState.store (some endingValue)

/-- The SetAnnotation operation of the spec: the transaction loop of
SetLicenseURLAction applied to every selected asset.  An absent new value
reaches the loop as the empty string (FText::ToString of an empty text). -/
def setSourceURL (assets : List MetaState) (newValue : Option String) : List MetaState :=
  assets.map (applySourceURL (getValue newValue))

/-- ETextCommit::Type of the host. -/
inductive TextCommitType where
  | default : TextCommitType
  | onEnter : TextCommitType
  | onUserMovedFocus : TextCommitType
  | onCleared : TextCommitType
deriving DecidableEq

/-- The full SetLicenseURLAction lambda (lines 167-197): the write loop runs
only when the commit was not OnCleared and the committed text differs from
the starting value under the case-insensitive FString operator!=. -/
def setLicenseURLAction (startingValue : String) (assets : List MetaState)
    (val : String) (commitType : TextCommitType) : List MetaState :=
  if commitType ≠ TextCommitType.onCleared ∧ eqCI val startingValue = false then
    assets.map (applySourceURL val)
  else assets

/-- An object of the content-browser selection: a UJamAssetLicense with its
AssetSourceURL property, or anything else (a non-license asset, or a stale
weak pointer), which Cast<UJamAssetLicense> rejects. -/
inductive SelectedObject where
  | licenseAsset : String → SelectedObject
  | nonLicense : SelectedObject
deriving DecidableEq

/-- TSet<FString>::Add: when an element equal under the case-insensitive
FString key functions already exists, the host overwrites it in place with
the newly added spelling; otherwise the element is appended. -/
def setAddCI : List String → String → List String
  | [], u => [u]
  | v :: vs, u => if eqCI v u then u :: vs else v :: setAddCI vs u

/-- One iteration of the URL-collection loop shared by
SelectRelatedAssetsAction and ViewAssetSourceAction (lines 220-229 and
272-281): only license assets with a non-empty AssetSourceURL contribute. -/
def collectStep (acc : List String) (o : SelectedObject) : List String :=
  match o with
  | SelectedObject.licenseAsset url => if url = "" then acc else setAddCI acc url
  | SelectedObject.nonLicense => acc

/-- The URLs launched by the Open Asset Source URL action (lines 269-287):
the TSet built from the selection, iterated in order; each element is passed
to LaunchURL exactly once. -/
def launchedURLs (sel : List SelectedObject) : List String :=
  sel.foldl collectStep []

/-- Number of elements of a list that match u under the host's
case-insensitive equality. -/
def countCI (u : String) (l : List String) : Nat :=
  (l.filter (fun v => eqCI u v)).length

/-- Whether the selection contains a license asset whose non-empty URL
matches u case-insensitively. -/
def hasLicenseCI (u : String) (sel : List SelectedObject) : Bool :=
  sel.any (fun o =>
    match o with
    | SelectedObject.licenseAsset w => (!(w == "")) && eqCI u w
    | SelectedObject.nonLicense => false)

/-- TSet<FString>::Contains: case-insensitive membership. -/
def setContainsCI (s : List String) (v : String) : Bool :=
  s.any (fun u => eqCI u v)

/-- An entry of the host asset registry: an asset identifier together with
the value of its AssetSourceURL registry tag, when the asset carries that
tag.  GetAssetsByTags returns the entries with a tag value, and
GetTagValue succeeds exactly on those. -/
structure AssetData where
  id : Nat
  tagValue : Option String
deriving DecidableEq

/-- The FindAssetsBySharedURL operation: the registry-matching loop of
SelectRelatedAssetsAction (lines 234-249), keeping every registry entry
whose tag value is contained (TSet::Contains, case-insensitive) in the set
of URLs collected from the selection. -/
def findAssetsBySharedURL (urls : List String) (registry : List AssetData) :
    List AssetData :=
  registry.foldl (fun acc ad =>
    match ad.tagValue with
    | some v => if setContainsCI urls v = true then acc ++ [ad] else acc
    | none => acc) []

end JamLicense



namespace JamLicense

theorem eqCI_refl (a : String) : eqCI a a = true := by
  simp [eqCI]

theorem eqCI_symm_false (a b : String) (h : eqCI a b = false) : eqCI b a = false := by
  simp [eqCI] at h ⊢
  exact fun hh => h hh.symm

theorem lexLt_irrefl (x : List Char) : lexLt x x = false := by
  induction x with
  | nil => rfl
  | cons a as ih => simp [lexLt, ih]

theorem lexLt_asymm : ∀ x y : List Char, lexLt x y = true → lexLt y x = false := by
  intro x
  induction x with
  | nil =>
    intro y h
    cases y with
    | nil => simp [lexLt] at h
    | cons b bs => simp [lexLt]
  | cons a as ih =>
    intro y h
    cases y with
    | nil => simp [lexLt] at h
    | cons b bs =>
      by_cases hab : a = b
      · subst hab
        simp [lexLt] at h ⊢
        exact ih bs h
      · simp [lexLt, hab] at h
        simp [lexLt, Ne.symm hab]
        exact le_of_lt h

theorem lexLt_trans : ∀ x y z : List Char, lexLt x y = true → lexLt y z = true →
    lexLt x z = true := by
  intro x
  induction x with
  | nil =>
    intro y z h1 h2
    cases y with
    | nil => simp [lexLt] at h1
    | cons b bs =>
      cases z with
      | nil => simp [lexLt] at h2
      | cons c cs => simp [lexLt]
  | cons a as ih =>
    intro y z h1 h2
    cases y with
    | nil => simp [lexLt] at h1
    | cons b bs =>
      cases z with
      | nil => simp [lexLt] at h2
      | cons c cs =>
        by_cases hab : a = b <;> by_cases hbc : b = c
        · subst hab; subst hbc
          simp [lexLt] at h1 h2 ⊢
          exact ih bs cs h1 h2
        · subst hab
          simp [lexLt, hbc] at h2
          simp [lexLt, hbc]
          exact h2
        · subst hbc
          simp [lexLt, hab] at h1
          simp [lexLt, hab]
          exact h1
        · simp [lexLt, hab] at h1
          simp [lexLt, hbc] at h2
          have hac : a < c := lt_trans h1 h2
          simp [lexLt, ne_of_lt hac]
          exact hac

theorem lexLt_conn : ∀ x y : List Char, lexLt x y = false → lexLt y x = false → x = y := by
  intro x
  induction x with
  | nil =>
    intro y h1 _
    cases y with
    | nil => rfl
    | cons b bs => simp [lexLt] at h1
  | cons a as ih =>
    intro y h1 h2
    cases y with
    | nil => simp [lexLt] at h2
    | cons b bs =>
      by_cases hab : a = b
      · subst hab
        simp [lexLt] at h1 h2
        rw [ih bs h1 h2]
      · simp [lexLt, hab] at h1
        simp [lexLt, Ne.symm hab] at h2
        exact absurd (le_antisymm h2 h1) hab

theorem ciLt_asymm (a b : String) (h : ciLt a b = true) : ciLt b a = false :=
  lexLt_asymm _ _ h

theorem ciLt_trans (a b c : String) (h1 : ciLt a b = true) (h2 : ciLt b c = true) :
    ciLt a c = true :=
  lexLt_trans _ _ _ h1 h2

theorem ciLt_conn (a b : String) (h1 : ciLt a b = false) (h2 : ciLt b a = false) :
    eqCI a b = true := by
  have h := lexLt_conn _ _ h1 h2
  simp [eqCI]
  exact String.ext h

theorem cmpURLs_asymm (t : List (String × Nat)) (a b : String)
    (h : cmpURLs t a b = true) : cmpURLs t b a = false := by
  by_cases hc : lookupCount a t = lookupCount b t
  · rw [cmpURLs, if_pos hc] at h
    rw [cmpURLs, if_pos hc.symm]
    exact ciLt_asymm a b h
  · rw [cmpURLs, if_neg hc] at h
    rw [cmpURLs, if_neg (fun hh => hc hh.symm)]
    simp at h ⊢
    omega

theorem cmpURLs_trans (t : List (String × Nat)) (a b c : String)
    (h1 : cmpURLs t a b = true) (h2 : cmpURLs t b c = true) : cmpURLs t a c = true := by
  by_cases hab : lookupCount a t = lookupCount b t <;>
    by_cases hbc : lookupCount b t = lookupCount c t
  · rw [cmpURLs, if_pos hab] at h1
    rw [cmpURLs, if_pos hbc] at h2
    rw [cmpURLs, if_pos (hab.trans hbc)]
    exact ciLt_trans a b c h1 h2
  · rw [cmpURLs, if_neg hbc] at h2
    simp at h2
    rw [cmpURLs, if_neg (by omega : ¬ lookupCount a t = lookupCount c t)]
    simp
    omega
  · rw [cmpURLs, if_neg hab] at h1
    simp at h1
    rw [cmpURLs, if_neg (by omega : ¬ lookupCount a t = lookupCount c t)]
    simp
    omega
  · rw [cmpURLs, if_neg hab] at h1
    rw [cmpURLs, if_neg hbc] at h2
    simp at h1 h2
    rw [cmpURLs, if_neg (by omega : ¬ lookupCount a t = lookupCount c t)]
    simp
    omega

theorem cmpURLs_conn (t : List (String × Nat)) (a b : String)
    (h1 : cmpURLs t a b = false) (h2 : cmpURLs t b a = false) :
    lookupCount a t = lookupCount b t ∧ eqCI a b = true := by
  by_cases hc : lookupCount a t = lookupCount b t
  · rw [cmpURLs, if_pos hc] at h1
    rw [cmpURLs, if_pos hc.symm] at h2
    exact ⟨hc, ciLt_conn a b h1 h2⟩
  · rw [cmpURLs, if_neg hc] at h1
    rw [cmpURLs, if_neg (fun hh => hc hh.symm)] at h2
    simp at h1 h2
    omega

end JamLicense

namespace JamLicense

theorem mem_sortInsert (lt : String → String → Bool) (x z : String) :
    ∀ l : List String, z ∈ sortInsert lt x l ↔ z = x ∨ z ∈ l := by
  intro l
  induction l with
  | nil => simp [sortInsert]
  | cons y ys ih =>
    by_cases h : lt x y = true
    · rw [sortInsert, if_pos h]
      simp [List.mem_cons]
    · rw [sortInsert, if_neg h]
      simp [List.mem_cons, ih]
      tauto

theorem perm_sortInsert (lt : String → String → Bool) (x : String) :
    ∀ l : List String, (sortInsert lt x l).Perm (x :: l) := by
  intro l
  induction l with
  | nil => simp [sortInsert]
  | cons y ys ih =>
    by_cases h : lt x y = true
    · rw [sortInsert, if_pos h]
    · rw [sortInsert, if_neg h]
      exact (ih.cons y).trans (List.Perm.swap x y ys)

theorem perm_sortURLs (lt : String → String → Bool) :
    ∀ l : List String, (sortURLs lt l).Perm l := by
  intro l
  induction l with
  | nil => simp [sortURLs]
  | cons x xs ih => exact (perm_sortInsert lt x (sortURLs lt xs)).trans (ih.cons x)

theorem pairwise_sortInsert (lt : String → String → Bool)
    (hasym : ∀ a b, lt a b = true → lt b a = false)
    (htrans : ∀ a b c, lt a b = true → lt b c = true → lt a c = true)
    (x : String) :
    ∀ l : List String, List.Pairwise (fun a b => lt b a = false) l →
      List.Pairwise (fun a b => lt b a = false) (sortInsert lt x l) := by
  intro l
  induction l with
  | nil =>
    intro _
    simp [sortInsert]
  | cons y ys ih =>
    intro h
    rcases List.pairwise_cons.mp h with ⟨hy, hys⟩
    by_cases hxy : lt x y = true
    · rw [sortInsert, if_pos hxy]
      refine List.pairwise_cons.mpr ⟨?_, h⟩
      intro z hz
      rcases List.mem_cons.mp hz with rfl | hz'
      · exact hasym x z hxy
      · cases hzx : lt z x with
        | false => rfl
        | true =>
          have hzy : lt z y = true := htrans z x y hzx hxy
          rw [hy z hz'] at hzy
          exact absurd hzy (by simp)
    · rw [sortInsert, if_neg hxy]
      refine List.pairwise_cons.mpr ⟨?_, ih hys⟩
      intro z hz
      rcases (mem_sortInsert lt x z ys).mp hz with rfl | hz'
      · simp at hxy
        exact hxy
      · exact hy z hz'

theorem pairwise_sortURLs (lt : String → String → Bool)
    (hasym : ∀ a b, lt a b = true → lt b a = false)
    (htrans : ∀ a b c, lt a b = true → lt b c = true → lt a c = true) :
    ∀ l : List String, List.Pairwise (fun a b => lt b a = false) (sortURLs lt l) := by
  intro l
  induction l with
  | nil => simp [sortURLs]
  | cons x xs ih => exact pairwise_sortInsert lt hasym htrans x _ ih

theorem sorted_unique (lt : String → String → Bool)
    (hasym : ∀ a b, lt a b = true → lt b a = false) :
    ∀ l₁ l₂ : List String, l₁.Perm l₂ →
      List.Pairwise (fun a b => lt a b = true) l₁ →
      List.Pairwise (fun a b => lt a b = true) l₂ → l₁ = l₂ := by
  intro l₁
  induction l₁ with
  | nil =>
    intro l₂ hp _ _
    exact (hp.symm.eq_nil).symm
  | cons a t₁ ih =>
    intro l₂ hp h₁ h₂
    cases l₂ with
    | nil => exact absurd hp.eq_nil (by simp)
    | cons b t₂ =>
      by_cases hab : a = b
      · subst hab
        rw [ih t₂ hp.cons_inv (List.pairwise_cons.mp h₁).2 (List.pairwise_cons.mp h₂).2]
      · exfalso
        have ha2 : a ∈ b :: t₂ := hp.subset (List.mem_cons_self a t₁)
        have hat2 : a ∈ t₂ := by
          rcases List.mem_cons.mp ha2 with h | h
          · exact absurd h hab
          · exact h
        have hba : lt b a = true := (List.pairwise_cons.mp h₂).1 a hat2
        have hb1 : b ∈ a :: t₁ := hp.symm.subset (List.mem_cons_self b t₂)
        have hbt1 : b ∈ t₁ := by
          rcases List.mem_cons.mp hb1 with h | h
          · exact absurd h.symm hab
          · exact h
        have hab' : lt a b = true := (List.pairwise_cons.mp h₁).1 b hbt1
        rw [hasym a b hab'] at hba
        exact absurd hba (by simp)

theorem pairwise_mem_distinct {α : Type} {R : α → α → Prop}
    (hsym : ∀ e f, R e f → R f e) :
    ∀ t : List α, List.Pairwise R t → ∀ e ∈ t, ∀ f ∈ t, e ≠ f → R e f := by
  intro t
  induction t with
  | nil =>
    intro _ e he
    simp at he
  | cons g rest ih =>
    intro h e he f hf hef
    rcases List.pairwise_cons.mp h with ⟨hg, hrest⟩
    rcases List.mem_cons.mp he with rfl | he' <;> rcases List.mem_cons.mp hf with rfl | hf'
    · exact absurd rfl hef
    · exact hg f hf'
    · exact hsym _ _ (hg e he')
    · exact ih hrest e he' f hf' hef

theorem find?_congr_perm (u : String) (t t' : List (String × Nat))
    (hwf : wellFormedTally t) (hp : t.Perm t') :
    t.find? (fun e => eqCI e.1 u) = t'.find? (fun e => eqCI e.1 u) := by
  cases h : t.find? (fun e => eqCI e.1 u) with
  | none =>
    rw [List.find?_eq_none] at h
    symm
    rw [List.find?_eq_none]
    intro x hx
    exact h x (hp.symm.subset hx)
  | some e =>
    have he : e ∈ t := List.mem_of_find?_eq_some h
    have hpe : eqCI e.1 u = true := by simpa using List.find?_some h
    cases h' : t'.find? (fun e => eqCI e.1 u) with
    | none =>
      rw [List.find?_eq_none] at h'
      exact absurd hpe (h' e (hp.subset he))
    | some f =>
      have hf : f ∈ t := hp.symm.subset (List.mem_of_find?_eq_some h')
      have hpf : eqCI f.1 u = true := by simpa using List.find?_some h'
      by_cases hef : e = f
      · rw [hef]
      · exfalso
        have hR := pairwise_mem_distinct
          (R := fun e f : String × Nat => eqCI e.1 f.1 = false)
          (fun e f hh => eqCI_symm_false _ _ hh) t hwf e he f hf hef
        simp [eqCI] at hpe hpf hR
        exact hR (hpe.trans hpf.symm)

theorem lookupCount_congr (u : String) (t t' : List (String × Nat))
    (hwf : wellFormedTally t) (hp : t.Perm t') :
    lookupCount u t = lookupCount u t' := by
  unfold lookupCount
  rw [find?_congr_perm u t t' hwf hp]

theorem lookupCount_of_mem :
    ∀ t : List (String × Nat), wellFormedTally t → ∀ e ∈ t, lookupCount e.1 t = e.2 := by
  intro t
  induction t with
  | nil =>
    intro _ e he
    simp at he
  | cons f rest ih =>
    intro hwf e he
    rcases List.pairwise_cons.mp hwf with ⟨hf, hrest⟩
    rcases List.mem_cons.mp he with rfl | he'
    · simp [lookupCount, List.find?_cons, eqCI_refl]
    · have hne : eqCI f.1 e.1 = false := hf e he'
      have hrec := ih hrest e he'
      simp [lookupCount, List.find?_cons, hne] at hrec ⊢
      exact hrec

end JamLicense

namespace JamLicense

theorem sorted_strict_sortURLs (tally : List (String × Nat)) (l : List String)
    (hl : List.Pairwise (fun a b => eqCI a b = false) l) :
    List.Pairwise (fun a b => cmpURLs tally a b = true) (sortURLs (cmpURLs tally) l) := by
  have h1 := pairwise_sortURLs (cmpURLs tally) (cmpURLs_asymm tally) (cmpURLs_trans tally) l
  have h2 : List.Pairwise (fun a b => eqCI a b = false) (sortURLs (cmpURLs tally) l) :=
    (List.Perm.pairwise_iff (fun hh => eqCI_symm_false _ _ hh)
      (perm_sortURLs (cmpURLs tally) l)).mpr hl
  exact (h1.and h2).imp (fun {a b} hh => by
    rcases hh with ⟨hba, hne⟩
    cases hc : cmpURLs tally a b with
    | true => rfl
    | false =>
      have heq := (cmpURLs_conn tally a b hc hba).2
      rw [heq] at hne
      exact absurd hne (by simp))

theorem rankedList_pairwise (tally : List (String × Nat)) (hwf : wellFormedTally tally) :
    List.Pairwise (fun e f => e.2 > f.2 ∨ (e.2 = f.2 ∧ ciLt e.1 f.1 = true))
      (rankedList tally) := by
  have hkeys : List.Pairwise (fun a b => eqCI a b = false) (tally.map Prod.fst) :=
    List.pairwise_map.mpr hwf
  have hs := sorted_strict_sortURLs tally (tally.map Prod.fst) hkeys
  unfold rankedList
  refine List.pairwise_map.mpr ?_
  exact hs.imp (fun {a b} h => by
    by_cases hc : lookupCount a tally = lookupCount b tally
    · rw [cmpURLs, if_pos hc] at h
      exact Or.inr ⟨hc, h⟩
    · rw [cmpURLs, if_neg hc] at h
      simp at h
      exact Or.inl h)

theorem rankedList_deterministic (tally tally' : List (String × Nat))
    (hwf : wellFormedTally tally) (hwf' : wellFormedTally tally')
    (hp : tally.Perm tally') :
    rankedList tally = rankedList tally' := by
  have hcnt : ∀ u, lookupCount u tally = lookupCount u tally' := fun u =>
    lookupCount_congr u tally tally' hwf hp
  have hcmp : cmpURLs tally' = cmpURLs tally := by
    funext a b
    rw [cmpURLs, cmpURLs, hcnt a, hcnt b]
  have hkeys : List.Pairwise (fun a b => eqCI a b = false) (tally.map Prod.fst) :=
    List.pairwise_map.mpr hwf
  have hkeys' : List.Pairwise (fun a b => eqCI a b = false) (tally'.map Prod.fst) :=
    List.pairwise_map.mpr hwf'
  have hs := sorted_strict_sortURLs tally (tally.map Prod.fst) hkeys
  have hs' := sorted_strict_sortURLs tally (tally'.map Prod.fst) hkeys'
  have hpk : (tally.map Prod.fst).Perm (tally'.map Prod.fst) := hp.map Prod.fst
  have hsp : (sortURLs (cmpURLs tally) (tally.map Prod.fst)).Perm
      (sortURLs (cmpURLs tally) (tally'.map Prod.fst)) :=
    ((perm_sortURLs _ _).trans hpk).trans (perm_sortURLs _ _).symm
  have heq := sorted_unique (cmpURLs tally) (cmpURLs_asymm tally) _ _ hsp hs hs'
  have hfun : (fun u => (u, lookupCount u tally)) = (fun u => (u, lookupCount u tally')) :=
    funext fun u => by rw [hcnt u]
  unfold rankedList
  rw [hcmp, heq, hfun]

/-- C4 (amended): for every tally whose keys are pairwise distinct under the
host's case-insensitive FString equality (as TMap produces), the ranked list
is totally ordered by descending count with ties broken by ascending
case-insensitive lexicographic order of the URL (the host FString operator<),
and the ordering is deterministic: any permutation of the same tally yields
the identical sequence.  The spec's claim of byte/codepoint tie-breaking is
refuted by jam_C4_counterexample. -/
theorem jam_C4_amended (tally : List (String × Nat)) (hwf : wellFormedTally tally) :
    List.Pairwise (fun e f => e.2 > f.2 ∨ (e.2 = f.2 ∧ ciLt e.1 f.1 = true))
      (rankedList tally)
    ∧ ∀ tally' : List (String × Nat), wellFormedTally tally' → tally.Perm tally' →
        rankedList tally = rankedList tally' :=
  ⟨rankedList_pairwise tally hwf,
   fun tally' hwf' hp => rankedList_deterministic tally tally' hwf hwf' hp⟩

/-- C4 counterexample: the tally built from URLs "a" and "B" (each once) is
ranked ["a", "B"], because the host comparator is case-insensitive, whereas
the claimed byte/codepoint tie-break would put "B" (0x42) before "a" (0x61);
so the produced sequence is not ordered as the claim states. -/
theorem jam_C4_counterexample :
    (summarize [MetaState.store (some "a"), MetaState.store (some "B")]).1
      = [("a", 1), ("B", 1)]
    ∧ rankedList [("a", 1), ("B", 1)] = [("a", 1), ("B", 1)]
    ∧ ¬ specByteOrdered (rankedList [("a", 1), ("B", 1)]) := by
  decide

/-- Witness for jam_C4_amended at a concrete well-formed tally and a concrete
permutation of it. -/
theorem jam_C4_amended_witness :
    List.Pairwise (fun e f => e.2 > f.2 ∨ (e.2 = f.2 ∧ ciLt e.1 f.1 = true))
      (rankedList [("b", 2), ("a", 1)])
    ∧ rankedList [("b", 2), ("a", 1)] = rankedList [("a", 1), ("b", 2)] :=
  ⟨(jam_C4_amended [("b", 2), ("a", 1)] (by decide)).1,
   (jam_C4_amended [("b", 2), ("a", 1)] (by decide)).2 [("a", 1), ("b", 2)]
     (by decide) (by decide)⟩

end JamLicense

namespace JamLicense

theorem sumCounts_findOrAdd (u : String) :
    ∀ t : List (String × Nat), sumCounts (findOrAddIncrement u t) = sumCounts t + 1 := by
  intro t
  induction t with
  | nil => simp [findOrAddIncrement, sumCounts]
  | cons e rest ih =>
    by_cases h : eqCI e.1 u = true
    · simp [findOrAddIncrement, h, sumCounts]
      omega
    · simp [findOrAddIncrement, h, sumCounts] at ih ⊢
      omega

theorem summarize_fold_sum :
    ∀ (assets : List MetaState) (t : List (String × Nat)) (n : Nat),
      sumCounts (assets.foldl tallyStep (t, n)).1 + (assets.foldl tallyStep (t, n)).2
        = sumCounts t + n + assets.length := by
  intro assets
  induction assets with
  | nil =>
    intro t n
    simp
  | cons a rest ih =>
    intro t n
    cases a with
    | noStore =>
      simp only [List.foldl_cons, tallyStep]
      rw [ih t (n + 1)]
      simp [List.length_cons]
      omega
    | store v =>
      by_cases hv : getValue v = ""
      · simp only [List.foldl_cons, tallyStep, if_pos hv]
        rw [ih t (n + 1)]
        simp [List.length_cons]
        omega
      · simp only [List.foldl_cons, tallyStep, if_neg hv]
        rw [ih (findOrAddIncrement (getValue v) t) n]
        rw [sumCounts_findOrAdd]
        simp [List.length_cons]
        omega

/-- C2: for every input sequence of assets, the sum of all counts in the
resulting UsageTally plus NumAssetsWithNoURL equals the length of the input
sequence. -/
theorem jam_C2_sum_invariant (assets : List MetaState) :
    sumCounts (summarize assets).1 + (summarize assets).2 = assets.length := by
  have h := summarize_fold_sum assets [] 0
  simpa [summarize, sumCounts] using h

theorem summarize_fold_counter :
    ∀ (assets : List MetaState) (t : List (String × Nat)) (n : Nat),
      (assets.foldl tallyStep (t, n)).2 = n + countNoURL assets := by
  intro assets
  induction assets with
  | nil =>
    intro t n
    simp [countNoURL]
  | cons a rest ih =>
    intro t n
    cases a with
    | noStore =>
      simp only [List.foldl_cons, tallyStep]
      rw [ih t (n + 1)]
      simp [countNoURL, List.filter_cons, readURL]
      omega
    | store v =>
      by_cases hv : getValue v = ""
      · simp only [List.foldl_cons, tallyStep, if_pos hv]
        rw [ih t (n + 1)]
        simp [countNoURL, List.filter_cons, readURL, hv]
        omega
      · simp only [List.foldl_cons, tallyStep, if_neg hv]
        rw [ih (findOrAddIncrement (getValue v) t) n]
        simp [countNoURL, List.filter_cons, readURL, hv]

theorem lookupCount_findOrAdd (v u : String) :
    ∀ t : List (String × Nat),
      lookupCount u (findOrAddIncrement v t)
        = lookupCount u t + (if eqCI v u = true then 1 else 0) := by
  intro t
  induction t with
  | nil =>
    by_cases h : eqCI v u = true
    · simp [findOrAddIncrement, lookupCount, List.find?_cons, h]
    · simp [findOrAddIncrement, lookupCount, List.find?_cons, h]
  | cons e rest ih =>
    by_cases h1 : eqCI e.1 v = true
    · by_cases h2 : eqCI e.1 u = true
      · have hvu : eqCI v u = true := by
          simp [eqCI] at h1 h2 ⊢
          exact h1.symm.trans h2
        simp [findOrAddIncrement, h1, lookupCount, List.find?_cons, h2, hvu]
      · have hvu : eqCI v u = false := by
          simp [eqCI] at h1 h2 ⊢
          intro hh
          exact h2 (h1.trans hh)
        simp [findOrAddIncrement, h1, lookupCount, List.find?_cons, h2, hvu]
    · by_cases h2 : eqCI e.1 u = true
      · have hvu : eqCI v u = false := by
          simp [eqCI] at h1 h2 ⊢
          intro hh
          exact h1 (h2.trans hh.symm)
        simp [findOrAddIncrement, h1, lookupCount, List.find?_cons, h2, hvu]
      · simp [findOrAddIncrement, h1, lookupCount, List.find?_cons, h2] at ih ⊢
        exact ih

theorem keys_findOrAdd (v : String) :
    ∀ t : List (String × Nat), ∀ e ∈ findOrAddIncrement v t,
      e.1 = v ∨ ∃ f ∈ t, e.1 = f.1 := by
  intro t
  induction t with
  | nil =>
    intro e he
    simp [findOrAddIncrement] at he
    simp [he]
  | cons g rest ih =>
    intro e he
    by_cases h1 : eqCI g.1 v = true
    · simp only [findOrAddIncrement, if_pos h1] at he
      rcases List.mem_cons.mp he with rfl | he'
      · exact Or.inr ⟨g, List.mem_cons_self g rest, rfl⟩
      · exact Or.inr ⟨e, List.mem_cons_of_mem g he', rfl⟩
    · simp only [findOrAddIncrement, if_neg h1] at he
      rcases List.mem_cons.mp he with rfl | he'
      · exact Or.inr ⟨e, List.mem_cons_self e rest, rfl⟩
      · rcases ih e he' with h | ⟨f, hf, hef⟩
        · exact Or.inl h
        · exact Or.inr ⟨f, List.mem_cons_of_mem g hf, hef⟩

theorem wf_findOrAdd (v : String) :
    ∀ t : List (String × Nat), wellFormedTally t →
      wellFormedTally (findOrAddIncrement v t) := by
  intro t
  induction t with
  | nil =>
    intro _
    simp [findOrAddIncrement, wellFormedTally]
  | cons g rest ih =>
    intro h
    rcases List.pairwise_cons.mp h with ⟨hg, hrest⟩
    by_cases h1 : eqCI g.1 v = true
    · simp only [findOrAddIncrement, if_pos h1]
      exact List.pairwise_cons.mpr ⟨fun f hf => hg f hf, hrest⟩
    · simp only [findOrAddIncrement, if_neg h1]
      refine List.pairwise_cons.mpr ⟨?_, ih hrest⟩
      intro f hf
      rcases keys_findOrAdd v rest f hf with hfv | ⟨f', hf', hff'⟩
      · rw [hfv]
        simpa using h1
      · rw [hff']
        exact hg f' hf'

theorem summarize_fold_lookup (u : String) :
    ∀ (assets : List MetaState) (t : List (String × Nat)) (n : Nat),
      lookupCount u (assets.foldl tallyStep (t, n)).1
        = lookupCount u t + occCI u assets := by
  intro assets
  induction assets with
  | nil =>
    intro t n
    simp [occCI]
  | cons a rest ih =>
    intro t n
    cases a with
    | noStore =>
      simp only [List.foldl_cons, tallyStep]
      rw [ih t (n + 1)]
      simp [occCI, List.filter_cons, matchesCI, readURL]
    | store v =>
      by_cases hv : getValue v = ""
      · simp only [List.foldl_cons, tallyStep, if_pos hv]
        rw [ih t (n + 1)]
        simp [occCI, List.filter_cons, matchesCI, readURL, hv]
      · simp only [List.foldl_cons, tallyStep, if_neg hv]
        rw [ih (findOrAddIncrement (getValue v) t) n]
        rw [lookupCount_findOrAdd]
        by_cases hm : eqCI (getValue v) u = true
        · simp [occCI, List.filter_cons, matchesCI, readURL, hv, hm]
          omega
        · simp [occCI, List.filter_cons, matchesCI, readURL, hv, hm]

theorem summarize_fold_wf :
    ∀ (assets : List MetaState) (t : List (String × Nat)) (n : Nat),
      wellFormedTally t → wellFormedTally (assets.foldl tallyStep (t, n)).1 := by
  intro assets
  induction assets with
  | nil =>
    intro t n h
    exact h
  | cons a rest ih =>
    intro t n h
    cases a with
    | noStore =>
      simp only [List.foldl_cons, tallyStep]
      exact ih t (n + 1) h
    | store v =>
      by_cases hv : getValue v = ""
      · simp only [List.foldl_cons, tallyStep, if_pos hv]
        exact ih t (n + 1) h
      · simp only [List.foldl_cons, tallyStep, if_neg hv]
        exact ih _ n (wf_findOrAdd _ t h)

theorem summarize_fold_mem :
    ∀ (assets : List MetaState) (t : List (String × Nat)) (n : Nat),
      ∀ e ∈ (assets.foldl tallyStep (t, n)).1,
        (∃ f ∈ t, e.1 = f.1) ∨ ∃ a ∈ assets, readURL a = some e.1 := by
  intro assets
  induction assets with
  | nil =>
    intro t n e he
    exact Or.inl ⟨e, he, rfl⟩
  | cons a rest ih =>
    intro t n e he
    cases a with
    | noStore =>
      simp only [List.foldl_cons, tallyStep] at he
      rcases ih t (n + 1) e he with h | ⟨a', ha', hr⟩
      · exact Or.inl h
      · exact Or.inr ⟨a', List.mem_cons_of_mem _ ha', hr⟩
    | store v =>
      by_cases hv : getValue v = ""
      · simp only [List.foldl_cons, tallyStep, if_pos hv] at he
        rcases ih t (n + 1) e he with h | ⟨a', ha', hr⟩
        · exact Or.inl h
        · exact Or.inr ⟨a', List.mem_cons_of_mem _ ha', hr⟩
      · simp only [List.foldl_cons, tallyStep, if_neg hv] at he
        rcases ih _ n e he with ⟨f, hf, hef⟩ | ⟨a', ha', hr⟩
        · rcases keys_findOrAdd (getValue v) t f hf with hfv | ⟨f', hf', hff'⟩
          · refine Or.inr ⟨MetaState.store v, List.mem_cons_self _ _, ?_⟩
            simp [readURL, hv, hef, hfv]
          · exact Or.inl ⟨f', hf', hef.trans hff'⟩
        · exact Or.inr ⟨a', List.mem_cons_of_mem _ ha', hr⟩

end JamLicense

namespace JamLicense

/-- C3 (amended): the counter equals the number of assets contributing no
URL; the tally keys are pairwise distinct under the host's case-insensitive
FString key equality (TMap identifies keys differing only in case); every
entry's key is the stored URL of some input asset and its count is the
number of assets whose URL matches the key case-insensitively (hence at
least 1); every URL occurring in the input has a case-insensitive
representative among the keys; and the empty input yields an empty tally and
a zero counter.  The claim's case-sensitive reading of "distinct URLs" is
refuted by jam_C3_counterexample. -/
theorem jam_C3_amended (assets : List MetaState) :
    (summarize assets).2 = countNoURL assets
    ∧ List.Pairwise (fun e f => eqCI e.1 f.1 = false) (summarize assets).1
    ∧ (∀ e ∈ (summarize assets).1,
        (∃ a ∈ assets, readURL a = some e.1) ∧ e.2 = occCI e.1 assets ∧ 1 ≤ e.2)
    ∧ (∀ u : String, occCI u assets ≠ 0 →
        ∃ e ∈ (summarize assets).1, eqCI e.1 u = true)
    ∧ summarize ([] : List MetaState) = ([], 0) := by
  have hwf : wellFormedTally (summarize assets).1 :=
    summarize_fold_wf assets [] 0 (by simp [wellFormedTally])
  refine ⟨?_, hwf, ?_, ?_, rfl⟩
  · have h := summarize_fold_counter assets [] 0
    simpa [summarize] using h
  · intro e he
    have hmem := summarize_fold_mem assets [] 0 e he
    have hprov : ∃ a ∈ assets, readURL a = some e.1 := by
      rcases hmem with ⟨f, hf, _⟩ | h
      · simp at hf
      · exact h
    have hcnt : lookupCount e.1 (summarize assets).1 = occCI e.1 assets := by
      have h := summarize_fold_lookup e.1 assets [] 0
      simpa [summarize, lookupCount] using h
    have hc2 : lookupCount e.1 (summarize assets).1 = e.2 :=
      lookupCount_of_mem (summarize assets).1 hwf e he
    have he2 : e.2 = occCI e.1 assets := by rw [← hc2, hcnt]
    refine ⟨hprov, he2, ?_⟩
    rcases hprov with ⟨a, ha, hra⟩
    have hmf : a ∈ assets.filter (matchesCI e.1) :=
      List.mem_filter.mpr ⟨ha, by simp [matchesCI, hra, eqCI_refl]⟩
    have hlen := List.length_pos_of_mem hmf
    rw [he2]
    exact hlen
  · intro u hocc
    have hl : lookupCount u (summarize assets).1 = occCI u assets := by
      have h := summarize_fold_lookup u assets [] 0
      simpa [summarize, lookupCount] using h
    cases hf : (summarize assets).1.find? (fun e => eqCI e.1 u) with
    | none =>
      have hz : lookupCount u (summarize assets).1 = 0 := by
        simp [lookupCount, hf]
      rw [hz] at hl
      exact absurd hl.symm hocc
    | some e =>
      exact ⟨e, List.mem_of_find?_eq_some hf, by simpa using List.find?_some hf⟩

/-- Witness for jam_C3_amended: on the single asset with URL "x", a key
matching "x" is present in the tally. -/
theorem jam_C3_amended_witness :
    ∃ e ∈ (summarize [MetaState.store (some "x")]).1, eqCI e.1 "x" = true :=
  (jam_C3_amended [MetaState.store (some "x")]).2.2.2.1 "x" (by decide)

/-- C3 counterexample: the input holds the two (case-sensitively) distinct
non-empty URLs "A" and "a", but the tally maps the single key "A" to 2 —
TMap's FString key equality is case-insensitive — so the key set is not the
set of distinct URLs of the input, and no key carries occurrence count 1. -/
theorem jam_C3_counterexample :
    (summarize [MetaState.store (some "A"), MetaState.store (some "a")]).1 = [("A", 2)]
    ∧ readURL (MetaState.store (some "a")) = some "a"
    ∧ ("a" ∈ (summarize [MetaState.store (some "A"),
        MetaState.store (some "a")]).1.map Prod.fst → False) := by
  decide

/-- C1 (code bug): on a selection whose first asset stores the URL "x" and
whose second asset has no metadata object at all (hence no URL), the scan of
AddAssetSourceOptions still leaves SharedLicenseAssetID = "x" and the direct
open action is offered, because the missing-metadata branch sets
bAnyMissingLicense without clearing SharedLicenseAssetID; the claim (and the
comment at line 134 of the source) require the shared URL to be absent. -/
theorem jam_C1_missing_metadata_bug :
    sharedValue [MetaState.store (some "x"), MetaState.noStore] = some "x"
    ∧ readURL MetaState.noStore = none := by
  decide

/-- C8 (code bug): Summarize treats an asset with a missing metadata store
exactly like an asset with no URL (first conjunct, an identity of the loop
step), but SharedValue does not: swapping a missing-metadata asset for an
asset with an empty stored URL changes the result from some "x" to none, so
the missing-metadata asset is not treated as having no URL by that query. -/
theorem jam_C8_missing_metadata :
    (∀ acc : List (String × Nat) × Nat,
      tallyStep acc MetaState.noStore = tallyStep acc (MetaState.store none))
    ∧ sharedValue [MetaState.store (some "x"), MetaState.noStore] = some "x"
    ∧ sharedValue [MetaState.store (some "x"), MetaState.store none] = none :=
  ⟨fun acc => by simp [tallyStep, getValue], by decide, by decide⟩

end JamLicense

namespace JamLicense

/-- C5: the SetAnnotation operation (the transaction loop of
SetLicenseURLAction) removes every asset's annotation when the new value is
absent or the empty string — the final state of every asset is a metadata
store without the key — and otherwise sets every asset's annotation to the
new value; consequently the empty string and absence produce the same final
annotation state. -/
theorem jam_C5_remove_or_set (assets : List MetaState) (v : Option String) :
    setSourceURL assets v
      = assets.map (fun _ => if v = none ∨ v = some "" then MetaState.store none
          else MetaState.store (some (getValue v)))
    ∧ setSourceURL assets (some "") = setSourceURL assets none := by
  constructor
  · have hfun : applySourceURL (getValue v)
        = (fun _ : MetaState => if v = none ∨ v = some "" then MetaState.store none
            else MetaState.store (some (getValue v))) := by
      funext m
      cases v with
      | none => simp [applySourceURL, getValue]
      | some s =>
        by_cases hs : s = ""
        · subst hs
          simp [applySourceURL, getValue]
        · simp [applySourceURL, getValue, hs]
    rw [setSourceURL, hfun]
  · rfl

/-- C6: calling SetAnnotation twice in a row with the same value leaves the
assets' annotation state identical to calling it once. -/
theorem jam_C6_idempotent (assets : List MetaState) (v : Option String) :
    setSourceURL (setSourceURL assets v) v = setSourceURL assets v := by
  have hfun : applySourceURL (getValue v) ∘ applySourceURL (getValue v)
      = applySourceURL (getValue v) := by
    funext m
    by_cases he : getValue v = "" <;> simp [applySourceURL, he, Function.comp]
  simp only [setSourceURL, List.map_map, hfun]

theorem scanShared_invariant :
    ∀ (assets : List MetaState) (st : ShareState) (U : List String),
      (st.anyHave = true ↔ U ≠ []) →
      (∀ u ∈ U, st.shared ≠ "" → eqCI u st.shared = true) →
      ((assets.foldl shareStep st).anyHave = true
          ↔ U ++ assets.filterMap readURL ≠ [])
      ∧ (∀ u ∈ U ++ assets.filterMap readURL,
          (assets.foldl shareStep st).shared ≠ "" →
            eqCI u (assets.foldl shareStep st).shared = true) := by
  intro assets
  induction assets with
  | nil =>
    intro st U h1 h2
    simpa using ⟨h1, h2⟩
  | cons a rest ih =>
    intro st U h1 h2
    cases a with
    | noStore =>
      rw [List.foldl_cons]
      have hstep : shareStep st MetaState.noStore = { st with anyMissing := true } := rfl
      rw [hstep]
      have hread : readURL MetaState.noStore = none := rfl
      simp only [List.filterMap_cons, hread]
      exact ih { st with anyMissing := true } U h1 h2
    | store v =>
      rw [List.foldl_cons]
      by_cases hv : getValue v = ""
      · have hstep : shareStep st (MetaState.store v)
            = { st with anyMissing := true, shared := "" } := by
          simp [shareStep, hv]
        have hread : readURL (MetaState.store v) = none := by
          simp [readURL, hv]
        rw [hstep]
        simp only [List.filterMap_cons, hread]
        exact ih { st with anyMissing := true, shared := "" } U h1
          (fun u hu h => absurd rfl h)
      · have hread : readURL (MetaState.store v) = some (getValue v) := by
          simp [readURL, hv]
        by_cases hfresh : st.anyHave = false ∧ st.anyMissing = false
        · have hstep : shareStep st (MetaState.store v)
              = { st with anyHave := true, shared := getValue v } := by
            simp [shareStep, hv, hfresh]
          have hU : U = [] := by
            by_contra hne
            have hh := h1.mpr hne
            rw [hfresh.1] at hh
            exact absurd hh (by simp)
          subst hU
          rw [hstep]
          simp only [List.filterMap_cons, hread, List.nil_append]
          have hres := ih { st with anyHave := true, shared := getValue v } [getValue v]
            (by simp)
            (by
              intro u hu _
              rw [List.mem_singleton] at hu
              subst hu
              exact eqCI_refl (getValue v))
          simpa using hres
        · by_cases heq : eqCI (getValue v) st.shared = true
          · have hstep : shareStep st (MetaState.store v)
                = { st with anyHave := true } := by
              simp [shareStep, hv, hfresh, heq]
            rw [hstep]
            simp only [List.filterMap_cons, hread]
            have hres := ih { st with anyHave := true } (U ++ [getValue v])
              (by simp)
              (by
                intro u hu hsh
                rcases List.mem_append.mp hu with hu' | hu'
                · exact h2 u hu' hsh
                · rw [List.mem_singleton] at hu'
                  subst hu'
                  exact heq)
            simpa [List.append_assoc] using hres
          · have hstep : shareStep st (MetaState.store v)
                = { st with anyHave := true, shared := "" } := by
              simp [shareStep, hv, hfresh, heq]
            rw [hstep]
            simp only [List.filterMap_cons, hread]
            have hres := ih { st with anyHave := true, shared := "" } (U ++ [getValue v])
              (by simp)
              (fun u hu h => absurd rfl h)
            simpa [List.append_assoc] using hres

theorem urls_shared_empty (assets : List MetaState) (u v : String)
    (hu : u ∈ assets.filterMap readURL) (hv : v ∈ assets.filterMap readURL)
    (huv : eqCI u v = false) :
    (scanShared assets).anyHave = true ∧ (scanShared assets).shared = "" := by
  have hinv := scanShared_invariant assets
    { anyHave := false, anyMissing := false, shared := "" } []
    (by simp) (by intro x hx; simp at hx)
  rcases hinv with ⟨h1, h2⟩
  simp only [List.nil_append] at h1 h2
  constructor
  · exact h1.mpr (List.ne_nil_of_mem hu)
  · by_contra hsh
    have hcu := h2 u hu hsh
    have hcv := h2 v hv hsh
    simp [eqCI] at hcu hcv huv
    exact huv (hcu.trans hcv.symm)

/-- C9 (amended): when the selected assets carry two URLs that differ under
the host's case-insensitive FString comparison, the edit field is
pre-populated with the literal sentinel string "[multiple values]", and
committing text equal to that displayed starting value, or committing via a
cleared (escape) commit, performs no metadata write: all annotations remain
unchanged.  In particular a user cannot set the literal URL
"[multiple values]" on such a mixed selection.  The claim's case-sensitive
reading of "differing URLs" is refuted by jam_C9_counterexample. -/
theorem jam_C9_amended (assets : List MetaState) (u v : String)
    (hu : u ∈ assets.filterMap readURL) (hv : v ∈ assets.filterMap readURL)
    (huv : eqCI u v = false) :
    startingValueOf assets = "[multiple values]"
    ∧ ∀ (val : String) (ct : TextCommitType),
        (val = startingValueOf assets ∨ ct = TextCommitType.onCleared) →
        setLicenseURLAction (startingValueOf assets) assets val ct = assets := by
  have h := urls_shared_empty assets u v hu hv huv
  have hstart : startingValueOf assets = "[multiple values]" := by
    rw [startingValueOf, if_pos ⟨h.1, h.2⟩]
  refine ⟨hstart, ?_⟩
  intro val ct hgate
  rcases hgate with rfl | rfl
  · have hcond : ¬ (ct ≠ TextCommitType.onCleared
        ∧ eqCI (startingValueOf assets) (startingValueOf assets) = false) := by
      intro hc
      rw [eqCI_refl] at hc
      exact absurd hc.2 (by simp)
    rw [setLicenseURLAction, if_neg hcond]
  · have hcond : ¬ (TextCommitType.onCleared ≠ TextCommitType.onCleared
        ∧ eqCI val (startingValueOf assets) = false) := fun hc => hc.1 rfl
    rw [setLicenseURLAction, if_neg hcond]

/-- Witness for jam_C9_amended on a two-asset selection with URLs "x" and
"y": the box shows the sentinel and committing it back writes nothing. -/
theorem jam_C9_amended_witness :
    startingValueOf [MetaState.store (some "x"), MetaState.store (some "y")]
      = "[multiple values]"
    ∧ setLicenseURLAction
        (startingValueOf [MetaState.store (some "x"), MetaState.store (some "y")])
        [MetaState.store (some "x"), MetaState.store (some "y")]
        "[multiple values]" TextCommitType.onEnter
      = [MetaState.store (some "x"), MetaState.store (some "y")] := by
  have H := jam_C9_amended [MetaState.store (some "x"), MetaState.store (some "y")]
    "x" "y" (by decide) (by decide) (by decide)
  exact ⟨H.1, H.2 "[multiple values]" TextCommitType.onEnter (Or.inl H.1.symm)⟩

/-- C9 counterexample: the two selected assets store the differing URLs "X"
and "x", yet the edit field is pre-populated with "X" rather than the
sentinel, because the scan compares URLs with the case-insensitive FString
operator!=. -/
theorem jam_C9_counterexample :
    startingValueOf [MetaState.store (some "X"), MetaState.store (some "x")] = "X"
    ∧ readURL (MetaState.store (some "X")) = some "X"
    ∧ readURL (MetaState.store (some "x")) = some "x"
    ∧ ("X" = "x" → False) := by
  decide

end JamLicense

namespace JamLicense

theorem mem_setAddCI (u z : String) :
    ∀ l : List String, z ∈ setAddCI l u → z = u ∨ z ∈ l := by
  intro l
  induction l with
  | nil =>
    intro h
    simp [setAddCI] at h
    exact Or.inl h
  | cons v vs ih =>
    intro h
    by_cases hc : eqCI v u = true
    · simp only [setAddCI, if_pos hc] at h
      rcases List.mem_cons.mp h with rfl | h'
      · exact Or.inl rfl
      · exact Or.inr (List.mem_cons_of_mem v h')
    · simp only [setAddCI, if_neg hc] at h
      rcases List.mem_cons.mp h with rfl | h'
      · exact Or.inr (List.mem_cons_self z vs)
      · rcases ih h' with h'' | h''
        · exact Or.inl h''
        · exact Or.inr (List.mem_cons_of_mem v h'')

theorem pairwise_setAddCI (u : String) :
    ∀ l : List String, List.Pairwise (fun a b => eqCI a b = false) l →
      List.Pairwise (fun a b => eqCI a b = false) (setAddCI l u) := by
  intro l
  induction l with
  | nil =>
    intro _
    simp [setAddCI]
  | cons v vs ih =>
    intro h
    rcases List.pairwise_cons.mp h with ⟨hv, hvs⟩
    by_cases hc : eqCI v u = true
    · simp only [setAddCI, if_pos hc]
      refine List.pairwise_cons.mpr ⟨?_, hvs⟩
      intro w hw
      have hvw := hv w hw
      simp [eqCI] at hc hvw ⊢
      intro hh
      exact hvw (hc.trans hh)
    · simp only [setAddCI, if_neg hc]
      refine List.pairwise_cons.mpr ⟨?_, ih hvs⟩
      intro w hw
      rcases mem_setAddCI u w vs hw with rfl | hw'
      · simpa using hc
      · exact hv w hw'

theorem countCI_setAddCI (u w : String) :
    ∀ l : List String, List.Pairwise (fun a b => eqCI a b = false) l →
      countCI u (setAddCI l w) = if eqCI u w = true then 1 else countCI u l := by
  intro l
  induction l with
  | nil =>
    intro _
    by_cases h : eqCI u w = true <;> simp [setAddCI, countCI, h]
  | cons v vs ih =>
    intro hp
    rcases List.pairwise_cons.mp hp with ⟨hv, hvs⟩
    by_cases hc : eqCI v w = true
    · simp only [setAddCI, if_pos hc]
      by_cases hu : eqCI u w = true
      · have hvs0 : countCI u vs = 0 := by
          rw [countCI, List.length_eq_zero, List.filter_eq_nil_iff]
          intro x hx
          have hvx := hv x hx
          simp [eqCI] at hu hc hvx ⊢
          intro hh
          exact hvx (hc.trans (hu.symm.trans hh))
        rw [countCI] at hvs0 ⊢
        simp [List.filter_cons, hu, hvs0]
      · have huv : eqCI u v = false := by
          simp [eqCI] at hu hc ⊢
          intro hh
          exact hu (hh.trans hc)
        rw [if_neg hu]
        rw [countCI, countCI]
        simp [List.filter_cons, hu, huv]
    · simp only [setAddCI, if_neg hc]
      by_cases hu : eqCI u w = true
      · have huv : eqCI u v = false := by
          simp [eqCI] at hu hc ⊢
          intro hh
          exact hc (hh.symm.trans hu)
        have hrec := ih hvs
        rw [if_pos hu] at hrec ⊢
        simp [countCI, List.filter_cons, huv] at hrec ⊢
        omega
      · have hrec := ih hvs
        rw [if_neg hu] at hrec ⊢
        by_cases huv : eqCI u v = true
        · simp [countCI, List.filter_cons, huv] at hrec ⊢
          omega
        · simp [countCI, List.filter_cons, huv] at hrec ⊢
          omega

theorem launched_fold_subset :
    ∀ (sel : List SelectedObject) (acc : List String),
      ∀ z ∈ sel.foldl collectStep acc,
        z ∈ acc ∨ (z ≠ "" ∧ SelectedObject.licenseAsset z ∈ sel) := by
  intro sel
  induction sel with
  | nil =>
    intro acc z hz
    exact Or.inl hz
  | cons o rest ih =>
    intro acc z hz
    rw [List.foldl_cons] at hz
    rcases ih (collectStep acc o) z hz with h | ⟨hne, hmem⟩
    · cases o with
      | nonLicense => exact Or.inl h
      | licenseAsset url =>
        by_cases hu : url = ""
        · simp only [collectStep, if_pos hu] at h
          exact Or.inl h
        · simp only [collectStep, if_neg hu] at h
          rcases mem_setAddCI url z acc h with rfl | h'
          · exact Or.inr ⟨hu, List.mem_cons_self _ _⟩
          · exact Or.inl h'
    · exact Or.inr ⟨hne, List.mem_cons_of_mem o hmem⟩

theorem launched_fold_pairwise :
    ∀ (sel : List SelectedObject) (acc : List String),
      List.Pairwise (fun a b => eqCI a b = false) acc →
      List.Pairwise (fun a b => eqCI a b = false) (sel.foldl collectStep acc) := by
  intro sel
  induction sel with
  | nil =>
    intro acc h
    exact h
  | cons o rest ih =>
    intro acc h
    rw [List.foldl_cons]
    apply ih
    cases o with
    | nonLicense => exact h
    | licenseAsset url =>
      by_cases hu : url = ""
      · simpa [collectStep, hu] using h
      · simpa [collectStep, hu] using pairwise_setAddCI url acc h

theorem launched_fold_count (u : String) :
    ∀ (sel : List SelectedObject) (acc : List String),
      List.Pairwise (fun a b => eqCI a b = false) acc →
      countCI u (sel.foldl collectStep acc)
        = if hasLicenseCI u sel = true then 1 else countCI u acc := by
  intro sel
  induction sel with
  | nil =>
    intro acc _
    simp [hasLicenseCI]
  | cons o rest ih =>
    intro acc h
    rw [List.foldl_cons]
    cases o with
    | nonLicense =>
      have hrec := ih acc h
      simpa [hasLicenseCI, collectStep] using hrec
    | licenseAsset url =>
      by_cases hu : url = ""
      · have hrec := ih acc h
        simpa [hasLicenseCI, collectStep, hu] using hrec
      · have hcc : collectStep acc (SelectedObject.licenseAsset url) = setAddCI acc url := by
          simp [collectStep, hu]
        rw [hcc]
        have hrec := ih (setAddCI acc url) (pairwise_setAddCI url acc h)
        rw [hrec, countCI_setAddCI u url acc h]
        by_cases hr : hasLicenseCI u rest = true
        · simp [hasLicenseCI, List.any_cons] at hr ⊢
          simp [hr]
        · by_cases hm : eqCI u url = true
          · simp [hasLicenseCI, List.any_cons] at hr ⊢
            simp [hr, hm, hu]
          · simp [hasLicenseCI, List.any_cons] at hr ⊢
            simp [hr, hm]

end JamLicense

namespace JamLicense

/-- C10 (amended): the Open Asset Source URL action launches only non-empty
URLs of selected license assets (non-license objects and empty URLs are
ignored), the launched URLs are pairwise distinct under the host's
case-insensitive TSet key equality, and each non-empty URL of a selected
license asset is launched exactly once up to case: exactly one
case-insensitive match of it appears in the launch list.  The claim's
case-sensitive reading of "each distinct URL" is refuted by
jam_C10_counterexample. -/
theorem jam_C10_amended (sel : List SelectedObject) :
    (∀ z ∈ launchedURLs sel, z ≠ "" ∧ SelectedObject.licenseAsset z ∈ sel)
    ∧ List.Pairwise (fun a b => eqCI a b = false) (launchedURLs sel)
    ∧ ∀ u : String, u ≠ "" → SelectedObject.licenseAsset u ∈ sel →
        countCI u (launchedURLs sel) = 1 := by
  refine ⟨?_, ?_, ?_⟩
  · intro z hz
    rcases launched_fold_subset sel [] z hz with h | h
    · simp at h
    · exact h
  · exact launched_fold_pairwise sel [] (by simp)
  · intro u hne hmem
    have hhas : hasLicenseCI u sel = true := by
      rw [hasLicenseCI, List.any_eq_true]
      refine ⟨SelectedObject.licenseAsset u, hmem, ?_⟩
      simp [hne, eqCI_refl]
    rw [launchedURLs, launched_fold_count u sel [] (by simp), if_pos hhas]

/-- Witness for jam_C10_amended: a selection holding one license asset with
URL "a" launches exactly one case-insensitive match of "a". -/
theorem jam_C10_amended_witness :
    countCI "a" (launchedURLs [SelectedObject.licenseAsset "a"]) = 1 :=
  (jam_C10_amended [SelectedObject.licenseAsset "a"]).2.2 "a" (by decide) (by decide)

/-- C10 counterexample: two selected licenses hold the (case-sensitively)
distinct non-empty URLs "X" and "x", but only the single URL "x" is ever
launched — TSet's FString key equality is case-insensitive and Add keeps the
last-added spelling — so the distinct URL "X" is not launched exactly
once. -/
theorem jam_C10_counterexample :
    launchedURLs [SelectedObject.licenseAsset "X", SelectedObject.licenseAsset "x"]
      = ["x"]
    ∧ List.count "X"
        (launchedURLs [SelectedObject.licenseAsset "X", SelectedObject.licenseAsset "x"])
      = 0
    ∧ SelectedObject.licenseAsset "X"
        ∈ [SelectedObject.licenseAsset "X", SelectedObject.licenseAsset "x"]
    ∧ ("X" = "" → False) ∧ ("X" = "x" → False) := by
  decide

theorem findAssets_eq_filter (urls : List String) :
    ∀ (registry : List AssetData) (acc : List AssetData),
      registry.foldl (fun acc ad =>
          match ad.tagValue with
          | some v => if setContainsCI urls v = true then acc ++ [ad] else acc
          | none => acc) acc
        = acc ++ registry.filter (fun ad =>
            match ad.tagValue with
            | some v => setContainsCI urls v
            | none => false) := by
  intro registry
  induction registry with
  | nil =>
    intro acc
    simp
  | cons ad rest ih =>
    intro acc
    rw [List.foldl_cons, List.filter_cons]
    cases htag : ad.tagValue with
    | none =>
      rw [ih]
      simp [htag]
    | some v =>
      by_cases hc : setContainsCI urls v = true
      · rw [ih]
        simp [htag, hc, List.append_assoc]
      · have hcf : setContainsCI urls v = false := by simpa using hc
        rw [ih]
        simp [htag, hcf]

/-- C7 (amended): FindAssetsBySharedURL returns exactly those registry
entries whose stored annotation matches some URL of the input set under the
host's case-insensitive FString equality; trailing slashes and scheme
differences are not normalized, but letter case is unified by the host
comparison.  The claim's case-sensitive equality is refuted by
jam_C7_counterexample. -/
theorem jam_C7_amended (urls : List String) (registry : List AssetData)
    (ad : AssetData) :
    ad ∈ findAssetsBySharedURL urls registry
      ↔ ad ∈ registry ∧ ∃ v, ad.tagValue = some v ∧ ∃ u ∈ urls, eqCI u v = true := by
  rw [findAssetsBySharedURL, findAssets_eq_filter urls registry []]
  simp only [List.nil_append]
  rw [List.mem_filter]
  constructor
  · rintro ⟨hmem, hp⟩
    refine ⟨hmem, ?_⟩
    cases htag : ad.tagValue with
    | none =>
      rw [htag] at hp
      simp at hp
    | some v =>
      rw [htag] at hp
      refine ⟨v, rfl, ?_⟩
      simpa [setContainsCI, List.any_eq_true] using hp
  · rintro ⟨hmem, v, htag, u, hu, huv⟩
    refine ⟨hmem, ?_⟩
    rw [htag]
    simp only [setContainsCI, List.any_eq_true]
    exact ⟨u, hu, huv⟩

/-- C7 counterexample: with the URL set made of the single URL "http://x",
the registry asset annotated "HTTP://X" is returned although its annotation
is not equal to "http://x" by exact case-sensitive comparison — the host's
set membership test unifies letter case. -/
theorem jam_C7_counterexample :
    findAssetsBySharedURL ["http://x"] [AssetData.mk 0 (some "HTTP://X")]
      = [AssetData.mk 0 (some "HTTP://X")]
    ∧ ("HTTP://X" = "http://x" → False) := by
  decide

end JamLicense
